import Mathlib

/-!
Verification of the Snake decision engine (`src/Logic/lookAhead.js`, first
variant, lines 1-258, which is the variant the game loads; the A* pathfinder
in `src/Logic/a_star_algorithm.js` implements the identical algorithm with
the same neighbor order, tie-breaking and relaxation rule).

The JavaScript operates on `{x, y}` coordinate objects with string keys
`"x,y"` for set membership; we model positions as a structure of two
integers, JS `Set`s of keys as `Finset Pos`, JS `Map` lookup as first-match
search in the (key-unique) open list, and floating-point scores as exact
rationals.  Unbounded `while` loops are embedded with an explicit fuel that
provably never runs out on the loops' reachable states.
-/

set_option maxHeartbeats 1000000

/-- A grid position or direction vector, JS `{x, y}`. -/
structure Pos where
  x : Int
  y : Int
deriving DecidableEq, Repr

/-- JS `manhattanDistance(a, b) = |a.x - b.x| + |a.y - b.y|`. -/
def manhattanDistance (a b : Pos) : Nat :=
  (a.x - b.x).natAbs + (a.y - b.y).natAbs

/-- The direction enumeration used throughout the source: up, down, left, right. -/
def directions : List Pos :=
  [⟨0, -1⟩, ⟨0, 1⟩, ⟨-1, 0⟩, ⟨1, 0⟩]

/-- Obstacle set derived from a body: all body cells except the head
(the `for (let i = 1; ...)` loops in `lookAhead.js`). -/
def obstaclesOf (body : List Pos) : Finset Pos :=
  (body.drop 1).toFinset

/-- JS `class GameState`: snake body (head first), grid size, obstacle set. -/
structure GameState where
  snake : List Pos
  gridSize : Nat
  obstacles : Finset Pos

/-- JS `GameState.isValidPosition`: inside the square grid and not an obstacle. -/
def GameState.isValidPosition (s : GameState) (p : Pos) : Bool :=
  decide (0 ≤ p.x) && decide (p.x < (s.gridSize : Int)) &&
  decide (0 ≤ p.y) && decide (p.y < (s.gridSize : Int)) &&
  decide (p ∉ s.obstacles)

/-- JS `GameState.moveSnake(direction, ateFood)`: `null` (here `none`) when the
new head is invalid for the *current* snapshot, otherwise the shifted body with
the obstacle set recomputed from it.  An empty body yields `none` (the JS
arithmetic on `undefined` produces `NaN` coordinates, which fail the bounds
check). -/
def GameState.moveSnake (s : GameState) (direction : Pos) (ateFood : Bool) :
    Option GameState :=
  match s.snake with
  | [] => none
  | head :: _ =>
    let newHead : Pos := ⟨head.x + direction.x, head.y + direction.y⟩
    if s.isValidPosition newHead then
      let newSnake := if ateFood then newHead :: s.snake
                      else (newHead :: s.snake).dropLast
      some ⟨newSnake, s.gridSize, obstaclesOf newSnake⟩
    else
      none

/-- JS `GameState.getValidMoves`: the directions whose one-step successor of the
head is a valid position. -/
def GameState.getValidMoves (s : GameState) : List Pos :=
  directions.filter fun dir =>
    match s.snake with
    | [] => false
    | head :: _ => s.isValidPosition ⟨head.x + dir.x, head.y + dir.y⟩

/-- One round of the flood-fill loop body of `GameState.getAvailableSpace`:
pop the queue front, enqueue unvisited valid neighbors (in the JS order
`+x, -x, +y, -y`). -/
def GameState.floodAux (s : GameState) :
    Nat → List Pos → Finset Pos → Finset Pos
  | 0, _, visited => visited
  | _ + 1, [], visited => visited
  | fuel + 1, c :: queue, visited =>
    let nbrs : List Pos := [⟨c.x + 1, c.y⟩, ⟨c.x - 1, c.y⟩,
                            ⟨c.x, c.y + 1⟩, ⟨c.x, c.y - 1⟩]
    let vq := nbrs.foldl
      (fun (acc : Finset Pos × List Pos) nb =>
        if nb ∉ acc.1 ∧ s.isValidPosition nb then
          (insert nb acc.1, acc.2 ++ [nb])
        else acc)
      (visited, queue)
    s.floodAux fuel vq.2 vq.1

/-- JS `GameState.getAvailableSpace`: breadth-first flood fill from the head
over valid cells; returns the visited count (head included).  Each cell is
enqueued at most once, so `gridSize² + 1` dequeues always drain the queue. -/
def GameState.getAvailableSpace (s : GameState) : Nat :=
  match s.snake with
  | [] => 1
  | head :: _ =>
    (s.floodAux (s.gridSize * s.gridSize + 1) [head] {head}).card

/-- Result record of JS `evaluateMove`; `distanceToFood = none` models the JS
`Infinity` of the invalid-move branch. -/
structure MoveEval where
  score : ℚ
  availableSpace : Nat
  distanceToFood : Option Nat
deriving DecidableEq, Repr

/-- Head of a snapshot, defaulting like the defensive uses in the source. -/
def GameState.headPos (s : GameState) : Pos :=
  s.snake.headD ⟨0, 0⟩

/-- JS `evaluateMove(gameState, direction, foodPos, depth)`: recursive scoring
of a candidate move combining food distance, reachable space, wall proximity,
dead-end penalty and the discounted average of the children's scores. -/
def evaluateMove (gameState : GameState) (direction : Pos) (foodPos : Pos) :
    Nat → MoveEval
  | 0 =>
    { score := -2 * (manhattanDistance gameState.headPos foodPos : ℚ)
      availableSpace := gameState.getAvailableSpace
      distanceToFood := some (manhattanDistance gameState.headPos foodPos) }
  | depth + 1 =>
    match gameState.moveSnake direction false with
    | none => { score := -1000, availableSpace := 0, distanceToFood := none }
    | some newState =>
      let newHead := newState.headPos
      let distanceToFood := manhattanDistance newHead foodPos
      let score1 : ℚ :=
        ((gameState.gridSize : ℚ) * 2 - (distanceToFood : ℚ)) * 3
      let availableSpace := newState.getAvailableSpace
      let score2 : ℚ := score1 + (availableSpace : ℚ) * 8
      let wallDistance : Int :=
        min (min newHead.x newHead.y)
          (min ((gameState.gridSize : Int) - 1 - newHead.x)
               ((gameState.gridSize : Int) - 1 - newHead.y))
      let score3 : ℚ :=
        score2 - (if wallDistance = 0 then 40
                  else if wallDistance = 1 then 15 else 0)
      let futureValidMoves := newState.getValidMoves
      match futureValidMoves with
      | [] =>
        { score := score3 - 400, availableSpace := availableSpace
          distanceToFood := some distanceToFood }
      | fd :: fds =>
        let futureScores :=
          (fd :: fds).map fun futureDir =>
            (evaluateMove newState futureDir foodPos depth).score
        let avgFutureScore := futureScores.sum / (futureScores.length : ℚ)
        { score := score3 + avgFutureScore * (1 / 2)
          availableSpace := availableSpace
          distanceToFood := some distanceToFood }

/-- Search node of JS `findPath`: coordinates, g/h/f costs, and the path that
the JS parent-pointer chain reconstructs for it (start excluded, node itself
included; empty for the initial node whose parent is `null`).  Parent chains
consist of closed, never-again-mutated nodes, so storing the reconstructed
path is equivalent to storing the pointer. -/
structure ANode where
  x : Int
  y : Int
  g : Nat
  h : Nat
  f : Nat
  path : List Pos
deriving Repr

/-- Coordinates of a search node as a position. -/
def ANode.pos (nd : ANode) : Pos := ⟨nd.x, nd.y⟩

/-- Extraction of the open-set node with the lowest f-score, earliest index
winning ties, remaining list in order: the JS
`openSet.reduce((minIdx, node, idx) => node.f < openSet[minIdx].f ? idx : minIdx, 0)`
followed by `openSet.splice(currentIndex, 1)`. -/
def popMinF : List ANode → Option (ANode × List ANode)
  | [] => none
  | n :: rest =>
    match popMinF rest with
    | none => some (n, [])
    | some (m, rest') =>
      if m.f < n.f then some (m, n :: rest') else some (n, rest)

/-- Neighbor step of the JS `findPath` inner `for (const dir of directions)`
loop: skip when out of bounds, an obstacle, or closed; otherwise insert a new
node (JS `openSet.push` plus `openSetMap.set`) or relax an existing one when a
strictly smaller g is found.  The JS `openSetMap.get(nKey)` is first-match
lookup because open-list keys are unique. -/
def aStarStep (goal : Pos) (gridSize : Nat) (obstacles : Finset Pos)
    (current : ANode) (closed : Finset Pos) (op : List ANode) (d : Pos) :
    List ANode :=
  let nx := current.x + d.x
  let ny := current.y + d.y
  if nx < 0 ∨ (gridSize : Int) ≤ nx ∨ ny < 0 ∨ (gridSize : Int) ≤ ny ∨
      (⟨nx, ny⟩ : Pos) ∈ obstacles ∨ (⟨nx, ny⟩ : Pos) ∈ closed then
    op
  else
    let tentativeG := current.g + 1
    match op.find? (fun nd => nd.x = nx && nd.y = ny) with
    | none =>
      let hh := manhattanDistance ⟨nx, ny⟩ goal
      op ++ [⟨nx, ny, tentativeG, hh, tentativeG + hh,
             current.path ++ [⟨nx, ny⟩]⟩]
    | some _ =>
      op.map fun nd =>
        if nd.x = nx && nd.y = ny && decide (tentativeG < nd.g) then
          ⟨nd.x, nd.y, tentativeG, nd.h, tentativeG + nd.h,
           current.path ++ [⟨nx, ny⟩]⟩
        else nd

/-- The `while (openSet.length > 0)` loop of JS `findPath`, with fuel.  Each
iteration closes a fresh position, and closed positions all lie on the grid
(bar possibly the start node), so the `gridSize² + 2` fuel given by `findPath`
is never exhausted. -/
def findPathAux (goal : Pos) (gridSize : Nat) (obstacles : Finset Pos) :
    Nat → List ANode → Finset Pos → List Pos
  | 0, _, _ => []
  | fuel + 1, op, closed =>
    match popMinF op with
    | none => []
    | some (current, opRest) =>
      let closed' := insert current.pos closed
      if current.x = goal.x ∧ current.y = goal.y then
        current.path
      else
        let op' := directions.foldl
          (aStarStep goal gridSize obstacles current closed') opRest
        findPathAux goal gridSize obstacles fuel op' closed'

/-- JS `findPath(start, goal, gridSize, obstacles)`: A* with Manhattan
heuristic; returns the path from the first step after `start` to `goal`, or
`[]` when no path exists. -/
def findPath (start goal : Pos) (gridSize : Nat) (obstacles : Finset Pos) :
    List Pos :=
  let h0 := manhattanDistance start goal
  findPathAux goal gridSize obstacles (gridSize * gridSize + 2)
    [⟨start.x, start.y, 0, h0, h0, []⟩] ∅

/-- Snapshot construction of `getNextDirectionWithLookAhead` lines 197-202:
body plus the obstacle set of all body cells except the head. -/
def mkGameState (body : List Pos) (gridSize : Nat) : GameState :=
  ⟨body, gridSize, obstaclesOf body⟩

/-- Per-move evaluation records of the decision loop, in valid-move order:
the lookahead evaluation with the path-following `+80` bonus and the
long-path `+20` bonus already added (the JS mutates `evaluation.score`
before pushing onto `moveEvaluations`). -/
def moveEvaluations (gameState : GameState) (headPos foodCoords : Pos)
    (pathToFood : List Pos) (adaptiveDepth : Nat) : List (Pos × MoveEval) :=
  gameState.getValidMoves.map fun move =>
    let evaluation := evaluateMove gameState move foodCoords adaptiveDepth
    let evaluation :=
      match pathToFood with
      | [] => evaluation
      | nextStep :: _ =>
        let e1 :=
          if move.x = nextStep.x - headPos.x ∧ move.y = nextStep.y - headPos.y
          then { evaluation with score := evaluation.score + 80 }
          else evaluation
        if 2 < pathToFood.length then { e1 with score := e1.score + 20 }
        else e1
    (move, evaluation)

/-- One comparison of the decision loop's running maximum: strictly greater
score replaces the incumbent. -/
def pickStep (acc : Option Pos × WithBot ℚ) (me : Pos × MoveEval) :
    Option Pos × WithBot ℚ :=
  if acc.2 < (me.2.score : WithBot ℚ) then (some me.1, me.2.score) else acc

/-- Maximum-score selection of the decision loop: strictly greater score
replaces, starting from `bestScore = -Infinity`, `bestMove = null`. -/
def pickBestMove (evals : List (Pos × MoveEval)) : Option Pos :=
  (evals.foldl pickStep (none, ⊥)).1

/-- The `moveEvaluations.reduce` picking the evaluation with the strictly
largest reachable space, first maximum winning. -/
def saferStep (best current : Pos × MoveEval) : Pos × MoveEval :=
  if best.2.availableSpace < current.2.availableSpace then current else best

/-- JS `moveEvaluations.reduce` for the safety override, first maximum of
reachable space winning. -/
def safestEval (e0 : Pos × MoveEval) (rest : List (Pos × MoveEval)) :
    Pos × MoveEval :=
  rest.foldl saferStep e0

/-- JS `getNextDirectionWithLookAhead(snake, foodCell, gridSize, gridCells,
currentDirection)` after the DOM-cell-to-coordinate conversion (the
`getCellCoordinates` layer is presentation glue; the engine consumes the
resulting coordinate lists, which are this model's inputs).  `none` models the
JS `null` returns for missing food or an empty snake. -/
def getNextDirectionWithLookAhead (snakeCoords : List Pos) (food : Option Pos)
    (gridSize : Nat) (currentDirection : Pos) : Option Pos :=
  match food with
  | none => none
  | some foodCoords =>
    match snakeCoords with
    | [] => none
    | headPos :: _ =>
      let gameState := mkGameState snakeCoords gridSize
      let validMoves := gameState.getValidMoves
      if validMoves.isEmpty then some currentDirection
      else
        let pathToFood := findPath headPos foodCoords gridSize gameState.obstacles
        let adaptiveDepth :=
          if snakeCoords.length * 2 < gameState.getAvailableSpace then 5 else 3
        let evals :=
          moveEvaluations gameState headPos foodCoords pathToFood adaptiveDepth
        match pickBestMove evals with
        | none => none
        | some bestMove =>
          match evals.find? (fun e => e.1 = bestMove) with
          | none => some bestMove
          | some bestEval =>
            if bestEval.2.availableSpace < snakeCoords.length + 3 then
              match evals with
              | [] => some bestMove
              | e0 :: rest =>
                let safestMove := safestEval e0 rest
                if bestEval.2.availableSpace + 8 < safestMove.2.availableSpace
                then some safestMove.1
                else some bestMove
            else some bestMove

/-- The per-move evaluation list the decision function computes for a given
snake body, food position and grid size (empty for an empty body), exposed as
a definition so that properties of the selection stage can be stated against
it. -/
def decisionEvals (snakeCoords : List Pos) (food : Pos) (gridSize : Nat) :
    List (Pos × MoveEval) :=
  match snakeCoords with
  | [] => []
  | headPos :: _ =>
    let gameState := mkGameState snakeCoords gridSize
    let pathToFood := findPath headPos food gridSize gameState.obstacles
    let adaptiveDepth :=
      if snakeCoords.length * 2 < gameState.getAvailableSpace then 5 else 3
    moveEvaluations gameState headPos food pathToFood adaptiveDepth

/-- A position lies on the `gridSize × gridSize` grid. -/
def inB (n : Nat) (p : Pos) : Prop :=
  0 ≤ p.x ∧ p.x < (n : Int) ∧ 0 ≤ p.y ∧ p.y < (n : Int)

instance (n : Nat) (p : Pos) : Decidable (inB n p) := by
  unfold inB; infer_instance

/-- One 4-connected unit step. -/
def step1 (a b : Pos) : Prop := manhattanDistance a b = 1

instance (a b : Pos) : Decidable (step1 a b) := by
  unfold step1; infer_instance

/-- A walk on the grid: every cell after the (implicit) start is reached by a
unit step and lies in bounds.  The start itself is not part of the list,
matching the path representation returned by `findPath`. -/
def IsGridPath (n : Nat) : Pos → List Pos → Prop
  | _, [] => True
  | a, q :: rest => step1 a q ∧ inB n q ∧ IsGridPath n q rest

instance instDecidableIsGridPath (n : Nat) :
    (a : Pos) → (p : List Pos) → Decidable (IsGridPath n a p)
  | _, [] => isTrue trivial
  | a, q :: rest =>
    haveI := instDecidableIsGridPath n q rest
    decidable_of_iff (step1 a q ∧ inB n q ∧ IsGridPath n q rest) (by rw [IsGridPath])

/-- Final position of a walk starting at `a`. -/
def endPos (a : Pos) (p : List Pos) : Pos := p.getLastD a

/-- The number `k` is the true shortest-path length between `s` and `g` on the
obstacle-free `n × n` grid: some grid walk from `s` to `g` has length `k`, and
no grid walk from `s` to `g` is shorter.  This is exactly the distance a
reference breadth-first search computes. -/
def IsShortestLen (n : Nat) (s g : Pos) (k : Nat) : Prop :=
  (∃ p, IsGridPath n s p ∧ endPos s p = g ∧ p.length = k) ∧
  ∀ p, IsGridPath n s p → endPos s p = g → k ≤ p.length

/-- All positions of the `n × n` grid as a finite set. -/
def gridFinset (n : Nat) : Finset Pos :=
  ((Finset.range n) ×ˢ (Finset.range n)).image fun ab => ⟨ab.1, ab.2⟩

/-- Occupancy snapshots reachable in the engine: built from a body sequence the
way the decision policy builds them (`mkGameState`), then transformed by any
sequence of successful simulated moves. -/
inductive SimReachable : GameState → Prop
  | base (body : List Pos) (gridSize : Nat) : SimReachable (mkGameState body gridSize)
  | step (s s' : GameState) (d : Pos) (ate : Bool) :
      SimReachable s → s.moveSnake d ate = some s' → SimReachable s'

/-- Per-node invariant of the A* open list on the obstacle-free grid: the node
is in bounds and not closed, its stored path is a real grid walk from `s` of
length `g` ending at the node, and the `h`/`f` fields are coherent. -/
def NodeInv (n : Nat) (s goal : Pos) (closed : Finset Pos) (nd : ANode) : Prop :=
  inB n nd.pos ∧ nd.pos ∉ closed ∧
  IsGridPath n s nd.path ∧ endPos s nd.path = nd.pos ∧ nd.path.length = nd.g ∧
  nd.h = manhattanDistance nd.pos goal ∧ nd.f = nd.g + nd.h

/-- Loop invariant of `findPathAux` on the obstacle-free grid, tying the open
list and closed set to the start `s` and `goal`:  every open node satisfies
`NodeInv`, open-list keys are unique, the closed set is in bounds, the start
stays in the open list at cost `0` until closed, every in-bounds neighbor of a
closed cell `c` is closed or open at cost at most `dist(s, c) + 1`, and the
goal is never closed. -/
structure AInv (n : Nat) (s goal : Pos) (op : List ANode) (closed : Finset Pos) :
    Prop where
  opnode : ∀ nd ∈ op, NodeInv n s goal closed nd
  uniq : op.Pairwise fun a b => a.pos ≠ b.pos
  cbnd : ∀ q ∈ closed, inB n q
  sopen : s ∉ closed → ∃ nd ∈ op, nd.pos = s ∧ nd.g = 0
  bstar : ∀ c ∈ closed, ∀ q : Pos, step1 c q → inB n q →
    q ∈ closed ∨ ∃ nd ∈ op, nd.pos = q ∧ nd.g ≤ manhattanDistance s c + 1
  goalopen : goal ∉ closed

theorem isValidPosition_iff (s : GameState) (p : Pos) :
    s.isValidPosition p = true ↔
      0 ≤ p.x ∧ p.x < (s.gridSize : Int) ∧ 0 ≤ p.y ∧ p.y < (s.gridSize : Int) ∧
        p ∉ s.obstacles := by
  simp [GameState.isValidPosition, and_assoc]

/-- C4: `simulateMove` (`moveSnake`) fails exactly when the stepped head leaves
the grid or hits the pre-move obstacle set; on success the new body is
`newHead` consed onto the old body, with the last element dropped unless
`ateFood` is set. -/
theorem c4_simulateMove_characterization (s : GameState) (d : Pos) (ate : Bool)
    (hd : Pos) (tl : List Pos) (hsnake : s.snake = hd :: tl) :
    (s.moveSnake d ate = none ↔
      (hd.x + d.x < 0 ∨ (s.gridSize : Int) ≤ hd.x + d.x ∨
       hd.y + d.y < 0 ∨ (s.gridSize : Int) ≤ hd.y + d.y ∨
       (⟨hd.x + d.x, hd.y + d.y⟩ : Pos) ∈ s.obstacles)) ∧
    ∀ s', s.moveSnake d ate = some s' →
      s'.snake = if ate then (⟨hd.x + d.x, hd.y + d.y⟩ : Pos) :: s.snake
                 else ((⟨hd.x + d.x, hd.y + d.y⟩ : Pos) :: s.snake).dropLast := by
  unfold GameState.moveSnake
  rw [hsnake]
  dsimp only
  by_cases hv : s.isValidPosition ⟨hd.x + d.x, hd.y + d.y⟩ = true
  · have hv' := (isValidPosition_iff s _).mp hv
    dsimp only at hv'
    obtain ⟨h1, h2, h3, h4, h5⟩ := hv'
    refine ⟨?_, ?_⟩
    · simp only [hv, if_true]
      simp only [reduceCtorEq, false_iff]
      push_neg
      exact ⟨by omega, by omega, by omega, by omega, h5⟩
    · intro s' h
      simp only [hv, if_true, Option.some.injEq] at h
      rw [← h]
  · refine ⟨?_, ?_⟩
    · rw [if_neg hv]
      simp only [eq_self_iff_true, true_iff]
      by_contra hc
      push_neg at hc
      refine hv ((isValidPosition_iff s _).mpr ?_)
      dsimp only
      exact ⟨by omega, by omega, by omega, by omega, hc.2.2.2.2⟩
    · intro s' h
      simp [hv] at h

/-- Witness for C4 at a concrete snapshot. -/
theorem c4_simulateMove_characterization_witness :
    (mkGameState [⟨1, 1⟩, ⟨0, 1⟩] 3).snake = ⟨1, 1⟩ :: [⟨0, 1⟩] ∧
    ((mkGameState [⟨1, 1⟩, ⟨0, 1⟩] 3).moveSnake ⟨1, 0⟩ false = none ↔
      ((1 : Int) + 1 < 0 ∨ ((3 : Nat) : Int) ≤ 1 + 1 ∨
       (1 : Int) + 0 < 0 ∨ ((3 : Nat) : Int) ≤ 1 + 0 ∨
       (⟨1 + 1, 1 + 0⟩ : Pos) ∈ (mkGameState [⟨1, 1⟩, ⟨0, 1⟩] 3).obstacles)) :=
  ⟨rfl, (c4_simulateMove_characterization (mkGameState [⟨1, 1⟩, ⟨0, 1⟩] 3)
      ⟨1, 0⟩ false ⟨1, 1⟩ [⟨0, 1⟩] rfl).1⟩

/-- C7: a direction is among `getValidMoves` exactly when `simulateMove` with
`ateFood = false` succeeds on it. -/
theorem c7_validMoves_iff_simulate (s : GameState) (d : Pos)
    (hdir : d ∈ directions) :
    d ∈ s.getValidMoves ↔ s.moveSnake d false ≠ none := by
  unfold GameState.getValidMoves GameState.moveSnake
  cases hsnake : s.snake with
  | nil => simp [hsnake]
  | cons hd tl =>
    rw [List.mem_filter]
    by_cases hv : s.isValidPosition ⟨hd.x + d.x, hd.y + d.y⟩ = true
    · simp [hv, hdir]
    · simp [hv, hdir]

/-- Witness for C7 at a concrete snapshot and direction. -/
theorem c7_validMoves_iff_simulate_witness :
    (⟨1, 0⟩ : Pos) ∈ directions ∧
    ((⟨1, 0⟩ : Pos) ∈ (mkGameState [⟨0, 0⟩] 3).getValidMoves ↔
      (mkGameState [⟨0, 0⟩] 3).moveSnake ⟨1, 0⟩ false ≠ none) :=
  ⟨by decide, c7_validMoves_iff_simulate (mkGameState [⟨0, 0⟩] 3) ⟨1, 0⟩ (by decide)⟩

/-- C8: every snapshot built from a body sequence and transformed by successful
simulated moves keeps its obstacle set equal to the set of body cells at
indices 1 and above. -/
theorem c8_obstacles_recomputable (s : GameState) (h : SimReachable s) :
    s.obstacles = obstaclesOf s.snake := by
  induction h with
  | base body n => rfl
  | step s s' dir ate hs hmove ih =>
    unfold GameState.moveSnake at hmove
    cases hsnake : s.snake with
    | nil => rw [hsnake] at hmove; exact absurd hmove (by simp)
    | cons hd tl =>
      rw [hsnake] at hmove
      by_cases hv : s.isValidPosition ⟨hd.x + dir.x, hd.y + dir.y⟩ = true
      · simp only [hv, if_true, Option.some.injEq] at hmove
        rw [← hmove]
      · simp [hv] at hmove

/-- Witness for C8 on a freshly constructed and then once-moved snapshot. -/
theorem c8_obstacles_recomputable_witness :
    ∃ s : GameState, SimReachable s ∧ s.obstacles = obstaclesOf s.snake := by
  refine ⟨mkGameState [⟨0, 0⟩, ⟨1, 0⟩] 3, SimReachable.base _ _, ?_⟩
  exact c8_obstacles_recomputable _ (SimReachable.base _ _)

/-- C9: the decision function is deterministic — equal snake body, food, grid
size, and current direction always give the identical decision; the model is a
pure function of exactly these inputs (the source reads no clock and no
randomness). -/
theorem c9_decision_deterministic (s₁ s₂ : List Pos) (f₁ f₂ : Option Pos)
    (n₁ n₂ : Nat) (c₁ c₂ : Pos) (hs : s₁ = s₂) (hf : f₁ = f₂) (hn : n₁ = n₂)
    (hc : c₁ = c₂) :
    getNextDirectionWithLookAhead s₁ f₁ n₁ c₁ =
      getNextDirectionWithLookAhead s₂ f₂ n₂ c₂ := by
  rw [hs, hf, hn, hc]

/-- Witness for C9 at concrete equal inputs. -/
theorem c9_decision_deterministic_witness :
    getNextDirectionWithLookAhead [⟨0, 0⟩, ⟨1, 0⟩, ⟨0, 1⟩] (some ⟨1, 1⟩) 2 ⟨1, 0⟩ =
      getNextDirectionWithLookAhead [⟨0, 0⟩, ⟨1, 0⟩, ⟨0, 1⟩] (some ⟨1, 1⟩) 2 ⟨1, 0⟩ :=
  c9_decision_deterministic _ _ _ _ _ _ _ _ rfl rfl rfl rfl

/-- C2 counterexample: with the head boxed in on all four sides (2×2 grid,
body `[(0,0), (1,0), (0,1)]`), the decision function does *not* return "no
decision"; it returns the caller's current direction. -/
theorem c2_counterexample :
    getNextDirectionWithLookAhead [⟨0, 0⟩, ⟨1, 0⟩, ⟨0, 1⟩] (some ⟨1, 1⟩) 2 ⟨1, 0⟩ ≠
      none := by decide

/-- C2 amended: when the snake head has zero valid moves, the decision function
returns the current direction unchanged (not a null "no decision"); the
caller's collision detection ends the episode on the following blocked move. -/
theorem c2_amended_boxed_returns_current (snake : List Pos) (food : Pos)
    (n : Nat) (cur : Pos) (hd : Pos) (tl : List Pos) (hsnake : snake = hd :: tl)
    (hnomoves : (mkGameState snake n).getValidMoves = []) :
    getNextDirectionWithLookAhead snake (some food) n cur = some cur := by
  subst hsnake
  unfold getNextDirectionWithLookAhead
  simp [hnomoves]

/-- Witness for the amended C2 at the boxed-in snapshot. -/
theorem c2_amended_boxed_returns_current_witness :
    (mkGameState [⟨0, 0⟩, ⟨1, 0⟩, ⟨0, 1⟩] 2).getValidMoves = [] ∧
    getNextDirectionWithLookAhead [⟨0, 0⟩, ⟨1, 0⟩, ⟨0, 1⟩] (some ⟨1, 1⟩) 2 ⟨1, 0⟩ =
      some ⟨1, 0⟩ :=
  ⟨by decide,
   c2_amended_boxed_returns_current _ ⟨1, 1⟩ 2 ⟨1, 0⟩ ⟨0, 0⟩ [⟨1, 0⟩, ⟨0, 1⟩] rfl
     (by decide)⟩

theorem pickStep_foldl_mem (l : List (Pos × MoveEval)) :
    ∀ (acc : Option Pos × WithBot ℚ) (m : Pos),
      (l.foldl pickStep acc).1 = some m →
        acc.1 = some m ∨ m ∈ l.map Prod.fst := by
  induction l with
  | nil => intro acc m h; exact Or.inl h
  | cons e rest ih =>
    intro acc m h
    rcases ih (pickStep acc e) m h with h' | h'
    · unfold pickStep at h'
      split at h'
      · right
        simp only [Option.some.injEq] at h'
        simp [← h']
      · exact Or.inl h'
    · right; simp [h']

theorem pickStep_foldl_isSome (l : List (Pos × MoveEval)) :
    ∀ acc : Option Pos × WithBot ℚ, acc.1.isSome →
      (l.foldl pickStep acc).1.isSome := by
  induction l with
  | nil => intro acc h; exact h
  | cons e rest ih =>
    intro acc h
    refine ih (pickStep acc e) ?_
    unfold pickStep
    split
    · rfl
    · exact h

theorem pickBestMove_spec (e : Pos × MoveEval) (rest : List (Pos × MoveEval)) :
    ∃ m, pickBestMove (e :: rest) = some m ∧ m ∈ (e :: rest).map Prod.fst := by
  have hsome : (List.foldl pickStep (none, ⊥) (e :: rest)).1.isSome := by
    rw [List.foldl_cons]
    refine pickStep_foldl_isSome rest _ ?_
    unfold pickStep
    have : (⊥ : WithBot ℚ) < (e.2.score : WithBot ℚ) := WithBot.bot_lt_coe _
    simp [this]
  obtain ⟨m, hm⟩ := Option.isSome_iff_exists.mp hsome
  refine ⟨m, hm, ?_⟩
  rcases pickStep_foldl_mem (e :: rest) (none, ⊥) m hm with h | h
  · exact absurd h (by simp)
  · exact h

theorem saferStep_foldl_mem (l : List (Pos × MoveEval)) :
    ∀ b : Pos × MoveEval, l.foldl saferStep b ∈ b :: l := by
  induction l with
  | nil => intro b; simp
  | cons c rest ih =>
    intro b
    rw [List.foldl_cons]
    have h := ih (saferStep b c)
    have hbc : saferStep b c = b ∨ saferStep b c = c := by
      unfold saferStep; split
      · exact Or.inr rfl
      · exact Or.inl rfl
    rcases List.mem_cons.mp h with h | h
    · rcases hbc with h' | h' <;> rw [h] <;> rw [h'] <;> simp
    · simp [h]

theorem moveEvaluations_map_fst (gs : GameState) (hp food : Pos)
    (path : List Pos) (depth : Nat) :
    (moveEvaluations gs hp food path depth).map Prod.fst = gs.getValidMoves := by
  unfold moveEvaluations
  rw [List.map_map]
  exact List.map_id _

theorem decision_no_moves (snake : List Pos) (food : Pos) (n : Nat) (cur : Pos)
    (hd : Pos) (tl : List Pos) (hsnake : snake = hd :: tl)
    (hnomoves : (mkGameState snake n).getValidMoves = []) :
    getNextDirectionWithLookAhead snake (some food) n cur = some cur := by
  subst hsnake
  unfold getNextDirectionWithLookAhead
  simp [hnomoves]

theorem decision_mem_validMoves (snake : List Pos) (food : Pos) (n : Nat)
    (cur : Pos) (hd : Pos) (tl : List Pos) (hsnake : snake = hd :: tl)
    (hvm : (mkGameState snake n).getValidMoves ≠ []) :
    ∃ d, getNextDirectionWithLookAhead snake (some food) n cur = some d ∧
      d ∈ (mkGameState snake n).getValidMoves := by
  subst hsnake
  unfold getNextDirectionWithLookAhead
  dsimp only
  rw [if_neg (by simpa using hvm)]
  set gs := mkGameState (hd :: tl) n with hgs
  set pathToFood := findPath hd food n gs.obstacles with hpath
  set depth := if (hd :: tl).length * 2 < gs.getAvailableSpace then 5 else 3 with hdepth
  set evals := moveEvaluations gs hd food pathToFood depth with hevals
  obtain ⟨e, rest, hcons⟩ : ∃ e rest, evals = e :: rest := by
    cases hc : evals with
    | nil =>
      exfalso
      apply hvm
      have := moveEvaluations_map_fst gs hd food pathToFood depth
      rw [← hevals, hc] at this
      exact this.symm
    | cons e rest => exact ⟨e, rest, rfl⟩
  rw [hcons]
  obtain ⟨m, hm, hmem⟩ := pickBestMove_spec e rest
  rw [hm]
  dsimp only
  have hmemvm : m ∈ gs.getValidMoves := by
    have := moveEvaluations_map_fst gs hd food pathToFood depth
    rw [← hevals, hcons] at this
    rw [← this]
    exact hmem
  cases hfind : (e :: rest).find? (fun ev => ev.1 = m) with
  | none => exact ⟨m, rfl, hmemvm⟩
  | some bestEval =>
    dsimp only
    by_cases hspace : bestEval.2.availableSpace < (hd :: tl).length + 3
    · rw [if_pos hspace]
      by_cases hover : bestEval.2.availableSpace + 8 < (safestEval e rest).2.availableSpace
      · rw [if_pos hover]
        refine ⟨(safestEval e rest).1, rfl, ?_⟩
        have hsm : safestEval e rest ∈ e :: rest := saferStep_foldl_mem rest e
        have : (safestEval e rest).1 ∈ (e :: rest).map Prod.fst :=
          List.mem_map_of_mem _ hsm
        have hfst := moveEvaluations_map_fst gs hd food pathToFood depth
        rw [← hevals, hcons] at hfst
        rw [← hfst]
        exact this
      · rw [if_neg hover]
        exact ⟨m, rfl, hmemvm⟩
    · rw [if_neg hspace]
      exact ⟨m, rfl, hmemvm⟩

/-- C10: whenever the initial snapshot has at least one valid move, the
decision function returns a member of that valid-move set (both the
maximum-score selection and the safety override only pick evaluated valid
moves), so it never returns an immediately out-of-bounds or self-colliding
direction when a legal move exists. -/
theorem c10_decision_is_valid_move (snake : List Pos) (food : Pos) (n : Nat)
    (cur hd : Pos) (tl : List Pos) (hsnake : snake = hd :: tl)
    (hvm : (mkGameState snake n).getValidMoves ≠ []) :
    ∃ d, getNextDirectionWithLookAhead snake (some food) n cur = some d ∧
      d ∈ (mkGameState snake n).getValidMoves :=
  decision_mem_validMoves snake food n cur hd tl hsnake hvm

/-- Witness for C10 at a concrete single-cell snake. -/
theorem c10_decision_is_valid_move_witness :
    ([⟨0, 0⟩] : List Pos) = ⟨0, 0⟩ :: [] ∧
    (mkGameState [⟨0, 0⟩] 3).getValidMoves ≠ [] ∧
    ∃ d, getNextDirectionWithLookAhead [⟨0, 0⟩] (some ⟨2, 2⟩) 3 ⟨1, 0⟩ = some d ∧
      d ∈ (mkGameState [⟨0, 0⟩] 3).getValidMoves :=
  ⟨rfl, by decide,
   c10_decision_is_valid_move [⟨0, 0⟩] ⟨2, 2⟩ 3 ⟨1, 0⟩ ⟨0, 0⟩ [] rfl (by decide)⟩

/-- C3: when the body has length above one and the second segment sits at head
minus the current direction, the decision policy never returns the reverse of
the current direction. -/
theorem c3_never_reverse (snake : List Pos) (food : Option Pos) (n : Nat)
    (cur hd second : Pos) (tl : List Pos)
    (hsnake : snake = hd :: second :: tl)
    (hcur : cur ∈ directions)
    (hsecond : second = ⟨hd.x - cur.x, hd.y - cur.y⟩) :
    getNextDirectionWithLookAhead snake food n cur ≠ some ⟨-cur.x, -cur.y⟩ := by
  have hrev : cur ≠ (⟨-cur.x, -cur.y⟩ : Pos) := by
    simp only [directions, List.mem_cons, List.not_mem_nil, or_false] at hcur
    rcases hcur with rfl | rfl | rfl | rfl <;> decide
  cases food with
  | none =>
    subst hsnake
    simp [getNextDirectionWithLookAhead]
  | some f =>
    by_cases hvm : (mkGameState snake n).getValidMoves = []
    · rw [decision_no_moves snake f n cur hd (second :: tl) hsnake hvm]
      simp only [ne_eq, Option.some.injEq]
      exact hrev
    · obtain ⟨d, hout, hdmem⟩ :=
        decision_mem_validMoves snake f n cur hd (second :: tl) hsnake hvm
      rw [hout]
      intro hcontra
      rw [Option.some.injEq] at hcontra
      subst hcontra
      subst hsnake
      have hpred := List.of_mem_filter hdmem
      dsimp only at hpred
      have hval := (isValidPosition_iff _ _).mp hpred
      apply hval.2.2.2.2
      have hpos : (⟨hd.x + -cur.x, hd.y + -cur.y⟩ : Pos) = second := by
        rw [hsecond]
        simp only [Pos.mk.injEq]
        omega
      show (⟨hd.x + -cur.x, hd.y + -cur.y⟩ : Pos) ∈ _
      rw [hpos]
      show second ∈ obstaclesOf (hd :: second :: tl)
      unfold obstaclesOf
      simp

/-- Witness for C3 on the spec's scenario body with direction `(1, 0)`. -/
theorem c3_never_reverse_witness :
    ([⟨5, 5⟩, ⟨4, 5⟩, ⟨3, 5⟩] : List Pos) = ⟨5, 5⟩ :: ⟨4, 5⟩ :: [⟨3, 5⟩] ∧
    (⟨1, 0⟩ : Pos) ∈ directions ∧
    (⟨4, 5⟩ : Pos) = ⟨(5 : Int) - 1, (5 : Int) - 0⟩ ∧
    getNextDirectionWithLookAhead [⟨5, 5⟩, ⟨4, 5⟩, ⟨3, 5⟩] (some ⟨0, 0⟩) 17 ⟨1, 0⟩ ≠
      some ⟨-1, -0⟩ :=
  ⟨rfl, by decide, by decide,
   c3_never_reverse [⟨5, 5⟩, ⟨4, 5⟩, ⟨3, 5⟩] (some ⟨0, 0⟩) 17 ⟨1, 0⟩ ⟨5, 5⟩ ⟨4, 5⟩
     [⟨3, 5⟩] rfl (by decide) (by decide)⟩

theorem popMinF_eq_none_iff (l : List ANode) : popMinF l = none ↔ l = [] := by
  cases l with
  | nil => simp [popMinF]
  | cons n ns =>
    simp only [popMinF]
    cases popMinF ns with
    | none => simp
    | some mr => obtain ⟨m, r⟩ := mr; dsimp only; split <;> simp

theorem popMinF_perm (l : List ANode) :
    ∀ (c : ANode) (rest : List ANode), popMinF l = some (c, rest) →
      l.Perm (c :: rest) := by
  induction l with
  | nil => intro c rest h; simp [popMinF] at h
  | cons n ns ih =>
    intro c rest h
    unfold popMinF at h
    cases hp : popMinF ns with
    | none =>
      rw [hp] at h
      obtain rfl := (popMinF_eq_none_iff ns).mp hp
      simp only [Option.some.injEq, Prod.mk.injEq] at h
      rw [← h.1, ← h.2]
    | some mr =>
      obtain ⟨m, rest'⟩ := mr
      rw [hp] at h
      dsimp only at h
      split at h
      · simp only [Option.some.injEq, Prod.mk.injEq] at h
        rw [← h.1, ← h.2]
        have hperm := ih m rest' hp
        exact (hperm.cons n).trans (List.Perm.swap m n rest')
      · simp only [Option.some.injEq, Prod.mk.injEq] at h
        rw [← h.1, ← h.2]

theorem popMinF_mem (l : List ANode) (c : ANode) (rest : List ANode)
    (h : popMinF l = some (c, rest)) : c ∈ l :=
  (popMinF_perm l c rest h).mem_iff.mpr (List.mem_cons_self c rest)

theorem popMinF_min (l : List ANode) :
    ∀ (c : ANode) (rest : List ANode), popMinF l = some (c, rest) →
      ∀ nd ∈ l, c.f ≤ nd.f := by
  induction l with
  | nil => intro c rest h; simp [popMinF] at h
  | cons n ns ih =>
    intro c rest h nd hnd
    unfold popMinF at h
    cases hp : popMinF ns with
    | none =>
      rw [hp] at h
      obtain rfl := (popMinF_eq_none_iff ns).mp hp
      simp only [Option.some.injEq, Prod.mk.injEq] at h
      obtain rfl : n = nd := by
        rcases List.mem_cons.mp hnd with h' | h'
        · exact h'.symm
        · simp at h'
      rw [← h.1]
    | some mr =>
      obtain ⟨m, rest'⟩ := mr
      rw [hp] at h
      dsimp only at h
      split at h
      · simp only [Option.some.injEq, Prod.mk.injEq] at h
        rw [← h.1]
        rcases List.mem_cons.mp hnd with h' | h'
        · subst h'; omega
        · exact ih m rest' hp nd h'
      · simp only [Option.some.injEq, Prod.mk.injEq] at h
        rw [← h.1]
        rcases List.mem_cons.mp hnd with h' | h'
        · subst h'; exact le_refl _
        · have := ih m rest' hp nd h'
          omega

theorem aStarStep_path_valid (goal : Pos) (n : Nat) (obstacles : Finset Pos)
    (current : ANode) (closed : Finset Pos)
    (hcur : ∀ q ∈ current.path, inB n q ∧ q ∉ obstacles)
    (op : List ANode) (d : Pos)
    (hop : ∀ nd ∈ op, ∀ q ∈ nd.path, inB n q ∧ q ∉ obstacles) :
    ∀ nd ∈ aStarStep goal n obstacles current closed op d,
      ∀ q ∈ nd.path, inB n q ∧ q ∉ obstacles := by
  intro nd hnd q hq
  unfold aStarStep at hnd
  dsimp only at hnd
  split at hnd
  · exact hop nd hnd q hq
  · next hskip =>
    push_neg at hskip
    obtain ⟨hx0, hxn, hy0, hyn, hobs, _⟩ := hskip
    split at hnd
    · rcases List.mem_append.mp hnd with h | h
      · exact hop nd h q hq
      · simp only [List.mem_singleton] at h
        subst h
        dsimp only at hq
        rcases List.mem_append.mp hq with h' | h'
        · exact hcur q h'
        · simp only [List.mem_singleton] at h'
          subst h'
          exact ⟨⟨hx0, hxn, hy0, hyn⟩, hobs⟩
    · obtain ⟨nd0, hnd0, heq⟩ := List.mem_map.mp hnd
      rw [← heq] at hq
      split at hq
      · dsimp only at hq
        rcases List.mem_append.mp hq with h' | h'
        · exact hcur q h'
        · simp only [List.mem_singleton] at h'
          subst h'
          exact ⟨⟨hx0, hxn, hy0, hyn⟩, hobs⟩
      · exact hop nd0 hnd0 q hq

theorem foldl_aStarStep_path_valid (goal : Pos) (n : Nat)
    (obstacles : Finset Pos) (current : ANode) (closed : Finset Pos)
    (hcur : ∀ q ∈ current.path, inB n q ∧ q ∉ obstacles) :
    ∀ (ds : List Pos) (op : List ANode),
      (∀ nd ∈ op, ∀ q ∈ nd.path, inB n q ∧ q ∉ obstacles) →
      ∀ nd ∈ ds.foldl (aStarStep goal n obstacles current closed) op,
        ∀ q ∈ nd.path, inB n q ∧ q ∉ obstacles := by
  intro ds
  induction ds with
  | nil => intro op hop; exact hop
  | cons d ds ih =>
    intro op hop
    rw [List.foldl_cons]
    exact ih _ (aStarStep_path_valid goal n obstacles current closed hcur op d hop)

theorem findPathAux_path_valid (goal : Pos) (n : Nat) (obstacles : Finset Pos) :
    ∀ (fuel : Nat) (op : List ANode) (closed : Finset Pos),
      (∀ nd ∈ op, ∀ q ∈ nd.path, inB n q ∧ q ∉ obstacles) →
      ∀ q ∈ findPathAux goal n obstacles fuel op closed,
        inB n q ∧ q ∉ obstacles := by
  intro fuel
  induction fuel with
  | zero => intro op closed hop q hq; simp [findPathAux] at hq
  | succ fuel ih =>
    intro op closed hop q hq
    unfold findPathAux at hq
    cases hpop : popMinF op with
    | none => rw [hpop] at hq; simp at hq
    | some cr =>
      obtain ⟨current, opRest⟩ := cr
      rw [hpop] at hq
      dsimp only at hq
      have hcurmem : current ∈ op := popMinF_mem op current opRest hpop
      have hcur := hop current hcurmem
      by_cases hgoal : current.x = goal.x ∧ current.y = goal.y
      · rw [if_pos hgoal] at hq
        exact hcur q hq
      · rw [if_neg hgoal] at hq
        have hrest : ∀ nd ∈ opRest, ∀ qq ∈ nd.path, inB n qq ∧ qq ∉ obstacles :=
          fun nd hnd =>
            hop nd ((popMinF_perm op current opRest hpop).mem_iff.mpr
              (List.mem_cons_of_mem current hnd))
        exact ih _ _
          (foldl_aStarStep_path_valid goal n obstacles current _ hcur
            directions opRest hrest) q hq

/-- C6: every position of any path returned by the pathfinder lies on the grid
and avoids the obstacle set, for every start, goal, grid size, and obstacle
set. -/
theorem c6_path_safe (start goal : Pos) (gridSize : Nat)
    (obstacles : Finset Pos) :
    ∀ q ∈ findPath start goal gridSize obstacles,
      (0 ≤ q.x ∧ q.x < (gridSize : Int) ∧ 0 ≤ q.y ∧ q.y < (gridSize : Int)) ∧
        q ∉ obstacles := by
  intro q hq
  have := findPathAux_path_valid goal gridSize obstacles
    (gridSize * gridSize + 2)
    [⟨start.x, start.y, 0, manhattanDistance start goal,
      manhattanDistance start goal, []⟩] ∅
    (by intro nd hnd qq hqq; simp at hnd; rw [hnd] at hqq; simp at hqq)
    q hq
  exact this

/-- Witness for C6 on a concrete two-cell search. -/
theorem c6_path_safe_witness :
    (⟨1, 0⟩ : Pos) ∈ findPath ⟨0, 0⟩ ⟨1, 0⟩ 2 ∅ ∧
    ((0 ≤ (1 : Int) ∧ (1 : Int) < ((2 : Nat) : Int) ∧ 0 ≤ (0 : Int) ∧
      (0 : Int) < ((2 : Nat) : Int)) ∧ (⟨1, 0⟩ : Pos) ∉ (∅ : Finset Pos)) :=
  ⟨by decide, c6_path_safe ⟨0, 0⟩ ⟨1, 0⟩ 2 ∅ ⟨1, 0⟩ (by decide)⟩

theorem saferStep_foldl_ge (l : List (Pos × MoveEval)) :
    ∀ (b : Pos × MoveEval), ∀ e ∈ b :: l,
      e.2.availableSpace ≤ (l.foldl saferStep b).2.availableSpace := by
  induction l with
  | nil =>
    intro b e he
    rcases List.mem_cons.mp he with rfl | h
    · exact le_refl _
    · simp at h
  | cons c l' ih =>
    intro b e he
    rw [List.foldl_cons]
    have hb : b.2.availableSpace ≤ (saferStep b c).2.availableSpace := by
      unfold saferStep
      split
      · next h => exact le_of_lt h
      · exact le_refl _
    have hc : c.2.availableSpace ≤ (saferStep b c).2.availableSpace := by
      unfold saferStep
      split
      · exact le_refl _
      · next h => exact le_of_not_lt h
    rcases List.mem_cons.mp he with heq | h
    · rw [heq]
      exact le_trans hb (ih (saferStep b c) _ (List.mem_cons_self _ _))
    · rcases List.mem_cons.mp h with heq' | h'
      · rw [heq']
        exact le_trans hc (ih (saferStep b c) _ (List.mem_cons_self _ _))
      · exact ih (saferStep b c) e (List.mem_cons_of_mem _ h')

theorem safestEval_ge (e0 : Pos × MoveEval) (rest : List (Pos × MoveEval)) :
    ∀ e ∈ e0 :: rest, e.2.availableSpace ≤ (safestEval e0 rest).2.availableSpace :=
  saferStep_foldl_ge rest e0

/-- C5: when the maximum-score move's reachable space is below the threshold
(body length plus 3) and some other evaluated move's reachable space exceeds
it by more than the margin 8, the decision function returns the evaluated move
of largest reachable space — whose reachable space indeed exceeds the chosen
move's by more than 8 — instead of the maximum-score move. -/
theorem c5_safety_override (snake : List Pos) (food : Pos) (n : Nat)
    (cur hd : Pos) (tl : List Pos) (hsnake : snake = hd :: tl)
    (e0 : Pos × MoveEval) (rest : List (Pos × MoveEval))
    (hevals : decisionEvals snake food n = e0 :: rest)
    (bm : Pos) (hbm : pickBestMove (e0 :: rest) = some bm)
    (be : Pos × MoveEval)
    (hfind : (e0 :: rest).find? (fun ev => ev.1 = bm) = some be)
    (hlow : be.2.availableSpace < snake.length + 3)
    (hgap : ∃ e ∈ e0 :: rest, be.2.availableSpace + 8 < e.2.availableSpace) :
    getNextDirectionWithLookAhead snake (some food) n cur =
      some (safestEval e0 rest).1 ∧
    be.2.availableSpace + 8 < (safestEval e0 rest).2.availableSpace := by
  subst hsnake
  have hover : be.2.availableSpace + 8 < (safestEval e0 rest).2.availableSpace := by
    obtain ⟨e, hmem, hgt⟩ := hgap
    exact lt_of_lt_of_le hgt (safestEval_ge e0 rest e hmem)
  refine ⟨?_, hover⟩
  have hevals' : moveEvaluations (mkGameState (hd :: tl) n) hd food
      (findPath hd food n (mkGameState (hd :: tl) n).obstacles)
      (if (hd :: tl).length * 2 < (mkGameState (hd :: tl) n).getAvailableSpace
       then 5 else 3) = e0 :: rest := hevals
  have hvm : (mkGameState (hd :: tl) n).getValidMoves ≠ [] := by
    have hmap := moveEvaluations_map_fst (mkGameState (hd :: tl) n) hd food
      (findPath hd food n (mkGameState (hd :: tl) n).obstacles)
      (if (hd :: tl).length * 2 < (mkGameState (hd :: tl) n).getAvailableSpace
       then 5 else 3)
    rw [hevals'] at hmap
    intro hc
    rw [hc] at hmap
    simp at hmap
  unfold getNextDirectionWithLookAhead
  dsimp only
  rw [if_neg (by simpa using hvm)]
  rw [hevals', hbm]
  dsimp only
  rw [hfind]
  dsimp only
  rw [if_pos hlow, if_pos hover]

/-- Witness for C5: a 5×5 scenario in which the maximum-score move `(0, -1)`
leads into a 3-cell pocket (below the threshold `10 + 3`) while `(0, 1)` keeps
13 reachable cells, so the override switches to `(0, 1)`. -/
theorem c5_safety_override_witness :
    ([⟨4, 3⟩, ⟨3, 3⟩, ⟨3, 2⟩, ⟨2, 2⟩, ⟨1, 2⟩, ⟨1, 1⟩, ⟨2, 1⟩, ⟨3, 1⟩, ⟨3, 0⟩,
       ⟨4, 0⟩] : List Pos) =
      ⟨4, 3⟩ :: [⟨3, 3⟩, ⟨3, 2⟩, ⟨2, 2⟩, ⟨1, 2⟩, ⟨1, 1⟩, ⟨2, 1⟩, ⟨3, 1⟩, ⟨3, 0⟩,
       ⟨4, 0⟩] ∧
    decisionEvals [⟨4, 3⟩, ⟨3, 3⟩, ⟨3, 2⟩, ⟨2, 2⟩, ⟨1, 2⟩, ⟨1, 1⟩, ⟨2, 1⟩,
        ⟨3, 1⟩, ⟨3, 0⟩, ⟨4, 0⟩] ⟨4, 1⟩ 5 =
      ((⟨0, -1⟩ : Pos), (⟨(357 : ℚ)/2, 3, some 1⟩ : MoveEval)) ::
        [((⟨0, 1⟩ : Pos), (⟨(325 : ℚ)/2, 13, some 3⟩ : MoveEval))] ∧
    getNextDirectionWithLookAhead [⟨4, 3⟩, ⟨3, 3⟩, ⟨3, 2⟩, ⟨2, 2⟩, ⟨1, 2⟩,
        ⟨1, 1⟩, ⟨2, 1⟩, ⟨3, 1⟩, ⟨3, 0⟩, ⟨4, 0⟩] (some ⟨4, 1⟩) 5 ⟨1, 0⟩ =
      some (safestEval ((⟨0, -1⟩ : Pos), (⟨(357 : ℚ)/2, 3, some 1⟩ : MoveEval))
        [((⟨0, 1⟩ : Pos), (⟨(325 : ℚ)/2, 13, some 3⟩ : MoveEval))]).1 := by
  have hevals :
      decisionEvals [⟨4, 3⟩, ⟨3, 3⟩, ⟨3, 2⟩, ⟨2, 2⟩, ⟨1, 2⟩, ⟨1, 1⟩, ⟨2, 1⟩,
          ⟨3, 1⟩, ⟨3, 0⟩, ⟨4, 0⟩] ⟨4, 1⟩ 5 =
        ((⟨0, -1⟩ : Pos), (⟨(357 : ℚ)/2, 3, some 1⟩ : MoveEval)) ::
          [((⟨0, 1⟩ : Pos), (⟨(325 : ℚ)/2, 13, some 3⟩ : MoveEval))] := by
    with_unfolding_all decide
  refine ⟨rfl, hevals, ?_⟩
  exact (c5_safety_override _ ⟨4, 1⟩ 5 ⟨1, 0⟩ ⟨4, 3⟩ _ rfl _ _ hevals ⟨0, -1⟩
    (by with_unfolding_all decide)
    ((⟨0, -1⟩ : Pos), (⟨(357 : ℚ)/2, 3, some 1⟩ : MoveEval))
    (by with_unfolding_all decide) (by decide) (by decide)).1

theorem manhattanDistance_self (a : Pos) : manhattanDistance a a = 0 := by
  simp [manhattanDistance]

theorem manhattanDistance_triangle (a b c : Pos) :
    manhattanDistance a c ≤ manhattanDistance a b + manhattanDistance b c := by
  unfold manhattanDistance
  have hx : a.x - c.x = (a.x - b.x) + (b.x - c.x) := by ring
  have hy : a.y - c.y = (a.y - b.y) + (b.y - c.y) := by ring
  rw [hx, hy]
  have h1 := Int.natAbs_add_le (a.x - b.x) (b.x - c.x)
  have h2 := Int.natAbs_add_le (a.y - b.y) (b.y - c.y)
  omega

theorem manhattanDistance_eq_zero (a b : Pos) (h : manhattanDistance a b = 0) :
    a = b := by
  unfold manhattanDistance at h
  have hx : a.x = b.x := by omega
  have hy : a.y = b.y := by omega
  cases a; cases b
  simp_all

theorem endPos_cons (a q : Pos) (rest : List Pos) :
    endPos a (q :: rest) = endPos q rest := by
  unfold endPos
  exact List.getLastD_cons a q rest

theorem gridPath_length_ge (n : Nat) :
    ∀ (p : List Pos) (a : Pos), IsGridPath n a p →
      manhattanDistance a (endPos a p) ≤ p.length := by
  intro p
  induction p with
  | nil =>
    intro a _
    unfold endPos
    simp [manhattanDistance_self]
  | cons q rest ih =>
    intro a hp
    obtain ⟨hstep, hq, hrest⟩ := hp
    rw [endPos_cons]
    calc manhattanDistance a (endPos q rest)
        ≤ manhattanDistance a q + manhattanDistance q (endPos q rest) :=
          manhattanDistance_triangle a q _
      _ ≤ 1 + rest.length := by
          have := ih q hrest
          unfold step1 at hstep
          omega
      _ = (q :: rest).length := by simp [Nat.add_comm]

theorem gridPath_exists (n : Nat) :
    ∀ (k : Nat) (a b : Pos), inB n a → inB n b → manhattanDistance a b = k →
      ∃ p, IsGridPath n a p ∧ endPos a p = b ∧ p.length = k := by
  intro k
  induction k with
  | zero =>
    intro a b _ _ hm
    obtain rfl := manhattanDistance_eq_zero a b hm
    exact ⟨[], trivial, rfl, rfl⟩
  | succ k ih =>
    intro a b ha hb hm
    by_cases hx : a.x = b.x
    · have hy : a.y ≠ b.y := by
        intro hy
        unfold manhattanDistance at hm
        omega
      by_cases hdir : a.y < b.y
      · refine ?_
        have hq : inB n ⟨a.x, a.y + 1⟩ := by
          unfold inB at ha hb ⊢
          dsimp only
          omega
        have hstep : step1 a ⟨a.x, a.y + 1⟩ := by
          unfold step1 manhattanDistance
          dsimp only
          omega
        have hm' : manhattanDistance ⟨a.x, a.y + 1⟩ b = k := by
          unfold manhattanDistance at hm ⊢
          dsimp only
          omega
        obtain ⟨p, hp, hend, hlen⟩ := ih ⟨a.x, a.y + 1⟩ b hq hb hm'
        exact ⟨⟨a.x, a.y + 1⟩ :: p, ⟨hstep, hq, hp⟩,
          by rw [endPos_cons]; exact hend, by simp [hlen]⟩
      · have hq : inB n ⟨a.x, a.y - 1⟩ := by
          unfold inB at ha hb ⊢
          dsimp only
          omega
        have hstep : step1 a ⟨a.x, a.y - 1⟩ := by
          unfold step1 manhattanDistance
          dsimp only
          omega
        have hm' : manhattanDistance ⟨a.x, a.y - 1⟩ b = k := by
          unfold manhattanDistance at hm ⊢
          dsimp only
          omega
        obtain ⟨p, hp, hend, hlen⟩ := ih ⟨a.x, a.y - 1⟩ b hq hb hm'
        exact ⟨⟨a.x, a.y - 1⟩ :: p, ⟨hstep, hq, hp⟩,
          by rw [endPos_cons]; exact hend, by simp [hlen]⟩
    · by_cases hdir : a.x < b.x
      · have hq : inB n ⟨a.x + 1, a.y⟩ := by
          unfold inB at ha hb ⊢
          dsimp only
          omega
        have hstep : step1 a ⟨a.x + 1, a.y⟩ := by
          unfold step1 manhattanDistance
          dsimp only
          omega
        have hm' : manhattanDistance ⟨a.x + 1, a.y⟩ b = k := by
          unfold manhattanDistance at hm ⊢
          dsimp only
          omega
        obtain ⟨p, hp, hend, hlen⟩ := ih ⟨a.x + 1, a.y⟩ b hq hb hm'
        exact ⟨⟨a.x + 1, a.y⟩ :: p, ⟨hstep, hq, hp⟩,
          by rw [endPos_cons]; exact hend, by simp [hlen]⟩
      · have hq : inB n ⟨a.x - 1, a.y⟩ := by
          unfold inB at ha hb ⊢
          dsimp only
          omega
        have hstep : step1 a ⟨a.x - 1, a.y⟩ := by
          unfold step1 manhattanDistance
          dsimp only
          omega
        have hm' : manhattanDistance ⟨a.x - 1, a.y⟩ b = k := by
          unfold manhattanDistance at hm ⊢
          dsimp only
          omega
        obtain ⟨p, hp, hend, hlen⟩ := ih ⟨a.x - 1, a.y⟩ b hq hb hm'
        exact ⟨⟨a.x - 1, a.y⟩ :: p, ⟨hstep, hq, hp⟩,
          by rw [endPos_cons]; exact hend, by simp [hlen]⟩

theorem step1_exists_dir (a b : Pos) (h : step1 a b) :
    ∃ d ∈ directions, b = ⟨a.x + d.x, a.y + d.y⟩ := by
  unfold step1 manhattanDistance at h
  by_cases hx : a.x = b.x
  · by_cases hy : a.y < b.y
    · refine ⟨⟨0, 1⟩, by simp [directions], ?_⟩
      have : b.y = a.y + 1 := by omega
      cases b; cases a; simp_all
    · refine ⟨⟨0, -1⟩, by simp [directions], ?_⟩
      have : b.y = a.y - 1 := by omega
      cases b; cases a; simp_all
      omega
  · by_cases hxlt : a.x < b.x
    · refine ⟨⟨1, 0⟩, by simp [directions], ?_⟩
      have hbx : b.x = a.x + 1 := by omega
      have hby : b.y = a.y := by omega
      cases b; cases a; simp_all
    · refine ⟨⟨-1, 0⟩, by simp [directions], ?_⟩
      have hbx : b.x = a.x - 1 := by omega
      have hby : b.y = a.y := by omega
      cases b; cases a; simp_all
      omega

theorem gridPath_append (n : Nat) :
    ∀ (p : List Pos) (a q : Pos), IsGridPath n a p → step1 (endPos a p) q →
      inB n q → IsGridPath n a (p ++ [q]) := by
  intro p
  induction p with
  | nil =>
    intro a q _ hstep hq
    exact ⟨hstep, hq, trivial⟩
  | cons r rest ih =>
    intro a q hp hstep hq
    obtain ⟨hs, hr, hrest⟩ := hp
    rw [endPos_cons] at hstep
    exact ⟨hs, hr, ih r q hrest hstep hq⟩

theorem endPos_append (a q : Pos) (p : List Pos) :
    endPos a (p ++ [q]) = q := by
  unfold endPos
  exact List.getLastD_concat a q p

theorem step1_dir (d : Pos) (hd : d ∈ directions) (a : Pos) :
    step1 a ⟨a.x + d.x, a.y + d.y⟩ := by
  unfold step1 manhattanDistance
  simp only [directions, List.mem_cons, List.not_mem_nil, or_false] at hd
  rcases hd with rfl | rfl | rfl | rfl <;> (dsimp only; omega)

theorem aStarStep_mem_cases (goal : Pos) (n : Nat) (current : ANode)
    (closed : Finset Pos) (op : List ANode) (d : Pos) (nd' : ANode)
    (h : nd' ∈ aStarStep goal n ∅ current closed op d) :
    nd' ∈ op ∨
    (nd'.pos = ⟨current.x + d.x, current.y + d.y⟩ ∧
     nd'.g = current.g + 1 ∧
     nd'.f = nd'.g + nd'.h ∧
     nd'.path = current.path ++ [nd'.pos] ∧
     inB n nd'.pos ∧ nd'.pos ∉ closed ∧
     (nd'.h = manhattanDistance nd'.pos goal ∨
       ∃ nd ∈ op, nd.pos = nd'.pos ∧ nd.h = nd'.h)) := by
  unfold aStarStep at h
  dsimp only at h
  split at h
  · exact Or.inl h
  · next hskip =>
    push_neg at hskip
    obtain ⟨hx0, hxn, hy0, hyn, -, hcl⟩ := hskip
    split at h
    · rcases List.mem_append.mp h with h' | h'
      · exact Or.inl h'
      · simp only [List.mem_singleton] at h'
        subst h'
        refine Or.inr ⟨rfl, rfl, rfl, rfl, ⟨hx0, hxn, hy0, hyn⟩, hcl, Or.inl rfl⟩
    · obtain ⟨nd0, hnd0, heq⟩ := List.mem_map.mp h
      by_cases hcond : (decide (nd0.x = current.x + d.x) &&
          (decide (nd0.y = current.y + d.y) &&
            decide (current.g + 1 < nd0.g))) = true
      · simp only [Bool.and_eq_true, decide_eq_true_iff] at hcond
        obtain ⟨hex, hey, hlt⟩ := hcond
        rw [if_pos (by simp [hex, hey, hlt])] at heq
        subst heq
        refine Or.inr ⟨?_, rfl, rfl, ?_, ?_, ?_, Or.inr ⟨nd0, hnd0, ?_, rfl⟩⟩
        · show (⟨nd0.x, nd0.y⟩ : Pos) = _
          rw [hex, hey]
        · show _ = current.path ++ [(⟨nd0.x, nd0.y⟩ : Pos)]
          rw [hex, hey]
        · show inB n (⟨nd0.x, nd0.y⟩ : Pos)
          rw [hex, hey]
          exact ⟨hx0, hxn, hy0, hyn⟩
        · show (⟨nd0.x, nd0.y⟩ : Pos) ∉ closed
          rw [hex, hey]
          exact hcl
        · show nd0.pos = (⟨nd0.x, nd0.y⟩ : Pos)
          rfl
      · rw [if_neg (by simpa [Bool.and_assoc] using hcond)] at heq
        subst heq
        exact Or.inl hnd0

theorem aStarStep_persist (goal : Pos) (n : Nat) (current : ANode)
    (closed : Finset Pos) (op : List ANode) (d : Pos) (nd : ANode)
    (h : nd ∈ op) :
    ∃ nd' ∈ aStarStep goal n ∅ current closed op d,
      nd'.pos = nd.pos ∧ nd'.g ≤ nd.g ∧ nd'.h = nd.h := by
  unfold aStarStep
  dsimp only
  split
  · exact ⟨nd, h, rfl, le_refl _, rfl⟩
  · split
    · exact ⟨nd, List.mem_append_left _ h, rfl, le_refl _, rfl⟩
    · by_cases hcond : (decide (nd.x = current.x + d.x) &&
          (decide (nd.y = current.y + d.y) &&
            decide (current.g + 1 < nd.g))) = true
      · refine ⟨_, List.mem_map_of_mem _ h, ?_⟩
        simp only [Bool.and_eq_true, decide_eq_true_iff] at hcond
        obtain ⟨hex, hey, hlt⟩ := hcond
        rw [if_pos (by simp [hex, hey, hlt])]
        refine ⟨?_, le_of_lt hlt, rfl⟩
        show (⟨nd.x, nd.y⟩ : Pos) = nd.pos
        rfl
      · refine ⟨_, List.mem_map_of_mem _ h, ?_⟩
        rw [if_neg (by simpa [Bool.and_assoc] using hcond)]
        exact ⟨rfl, le_refl _, rfl⟩

theorem aStarStep_relax (goal : Pos) (n : Nat) (current : ANode)
    (closed : Finset Pos) (op : List ANode) (d : Pos)
    (hin : inB n (⟨current.x + d.x, current.y + d.y⟩ : Pos))
    (hnc : (⟨current.x + d.x, current.y + d.y⟩ : Pos) ∉ closed) :
    ∃ nd' ∈ aStarStep goal n ∅ current closed op d,
      nd'.pos = (⟨current.x + d.x, current.y + d.y⟩ : Pos) ∧
      nd'.g ≤ current.g + 1 := by
  unfold aStarStep
  dsimp only
  have hx0 : 0 ≤ current.x + d.x := hin.1
  have hxn : current.x + d.x < (n : Int) := hin.2.1
  have hy0 : 0 ≤ current.y + d.y := hin.2.2.1
  have hyn : current.y + d.y < (n : Int) := hin.2.2.2
  rw [if_neg (by
    push_neg
    refine ⟨by omega, by omega, by omega, by omega, by simp, hnc⟩)]
  cases hfind : op.find? (fun nd =>
      decide (nd.x = current.x + d.x) && decide (nd.y = current.y + d.y)) with
  | none =>
    dsimp only
    refine ⟨_, List.mem_append_right _ (List.mem_singleton.mpr rfl), rfl, le_refl _⟩
  | some nd0 =>
    dsimp only
    have hnd0 := List.mem_of_find?_eq_some hfind
    have hp := List.find?_some hfind
    simp only [Bool.and_eq_true, decide_eq_true_iff] at hp
    obtain ⟨hex, hey⟩ := hp
    by_cases hlt : current.g + 1 < nd0.g
    · have hmm := List.mem_map_of_mem (fun nd : ANode =>
        if (decide (nd.x = current.x + d.x) && decide (nd.y = current.y + d.y) &&
            decide (current.g + 1 < nd.g)) = true
        then (⟨nd.x, nd.y, current.g + 1, nd.h, current.g + 1 + nd.h,
          current.path ++ [⟨current.x + d.x, current.y + d.y⟩]⟩ : ANode)
        else nd) hnd0
      dsimp only at hmm
      rw [if_pos (by simp [hex, hey, hlt])] at hmm
      refine ⟨_, hmm, ?_, le_refl _⟩
      show (⟨nd0.x, nd0.y⟩ : Pos) = _
      rw [hex, hey]
    · refine ⟨nd0, ?_, ?_, by omega⟩
      · have : (if (decide (nd0.x = current.x + d.x) &&
            decide (nd0.y = current.y + d.y) &&
              decide (current.g + 1 < nd0.g)) = true
            then (⟨nd0.x, nd0.y, current.g + 1, nd0.h, current.g + 1 + nd0.h,
              current.path ++ [⟨current.x + d.x, current.y + d.y⟩]⟩ : ANode)
            else nd0) = nd0 := by
          rw [if_neg (by simp [hlt])]
        rw [← this]
        exact List.mem_map_of_mem _ hnd0
      · show nd0.pos = _
        unfold ANode.pos
        rw [hex, hey]

theorem aStarStep_posKeep (current : ANode) (d : Pos) :
    ∀ nd : ANode,
      ((if (decide (nd.x = current.x + d.x) &&
          decide (nd.y = current.y + d.y) &&
            decide (current.g + 1 < nd.g)) = true
        then (⟨nd.x, nd.y, current.g + 1, nd.h, current.g + 1 + nd.h,
          current.path ++ [⟨current.x + d.x, current.y + d.y⟩]⟩ : ANode)
        else nd) : ANode).pos = nd.pos := by
  intro nd
  split
  · rfl
  · rfl

theorem aStarStep_uniq (goal : Pos) (n : Nat) (current : ANode)
    (closed : Finset Pos) (op : List ANode) (d : Pos)
    (h : op.Pairwise fun a b => a.pos ≠ b.pos) :
    (aStarStep goal n ∅ current closed op d).Pairwise
      fun a b => a.pos ≠ b.pos := by
  unfold aStarStep
  dsimp only
  split
  · exact h
  · split
    · next hfind =>
      rw [List.pairwise_append]
      refine ⟨h, List.pairwise_singleton _ _, ?_⟩
      intro a ha b hb
      simp only [List.mem_singleton] at hb
      subst hb
      have := List.find?_eq_none.mp hfind a ha
      simp only [Bool.and_eq_true, decide_eq_true_iff, not_and] at this
      intro hcontra
      have hax : a.x = current.x + d.x := congrArg Pos.x hcontra
      have hay : a.y = current.y + d.y := congrArg Pos.y hcontra
      exact this hax hay
    · refine List.Pairwise.map _ ?_ h
      intro a b hab
      rw [aStarStep_posKeep current d a, aStarStep_posKeep current d b]
      exact hab

theorem aStarStep_nodeInv (n : Nat) (s goal : Pos) (current : ANode)
    (closed : Finset Pos)
    (hcpath : IsGridPath n s current.path)
    (hcend : endPos s current.path = current.pos)
    (hclen : current.path.length = current.g)
    (op : List ANode) (d : Pos) (hd : d ∈ directions)
    (hop : ∀ nd ∈ op, NodeInv n s goal closed nd) :
    ∀ nd' ∈ aStarStep goal n ∅ current closed op d,
      NodeInv n s goal closed nd' := by
  intro nd' h
  rcases aStarStep_mem_cases goal n current closed op d nd' h with
    h' | ⟨hpos, hg, hf, hpath, hinb, hncl, hh⟩
  · exact hop nd' h'
  · have hstep : step1 current.pos nd'.pos := by
      rw [hpos]
      exact step1_dir d hd current.pos
    have hpathv : IsGridPath n s nd'.path := by
      rw [hpath]
      refine gridPath_append n current.path s nd'.pos hcpath ?_ hinb
      rw [hcend]
      exact hstep
    refine ⟨hinb, hncl, hpathv, ?_, ?_, ?_, hf⟩
    · rw [hpath]
      exact endPos_append s nd'.pos current.path
    · rw [hpath]
      simp [hclen, hg]
    · rcases hh with h'' | ⟨nd, hnd, hposeq, hheq⟩
      · exact h''
      · have hold := (hop nd hnd).2.2.2.2.2.1
        rw [← hheq, hold, hposeq]

theorem foldl_aStarStep_nodeInv (n : Nat) (s goal : Pos) (current : ANode)
    (closed : Finset Pos)
    (hcpath : IsGridPath n s current.path)
    (hcend : endPos s current.path = current.pos)
    (hclen : current.path.length = current.g) :
    ∀ (ds : List Pos), (∀ d ∈ ds, d ∈ directions) → ∀ (op : List ANode),
      (∀ nd ∈ op, NodeInv n s goal closed nd) →
      ∀ nd' ∈ ds.foldl (aStarStep goal n ∅ current closed) op,
        NodeInv n s goal closed nd' := by
  intro ds
  induction ds with
  | nil => intro _ op hop; exact hop
  | cons d ds' ih =>
    intro hds op hop
    rw [List.foldl_cons]
    exact ih (fun d' hd' => hds d' (List.mem_cons_of_mem _ hd'))
      _ (aStarStep_nodeInv n s goal current closed hcpath hcend hclen op d
          (hds d (List.mem_cons_self _ _)) hop)

theorem foldl_aStarStep_uniq (goal : Pos) (n : Nat) (current : ANode)
    (closed : Finset Pos) :
    ∀ (ds : List Pos) (op : List ANode),
      op.Pairwise (fun a b => a.pos ≠ b.pos) →
      (ds.foldl (aStarStep goal n ∅ current closed) op).Pairwise
        fun a b => a.pos ≠ b.pos := by
  intro ds
  induction ds with
  | nil => intro op hop; exact hop
  | cons d ds' ih =>
    intro op hop
    rw [List.foldl_cons]
    exact ih _ (aStarStep_uniq goal n current closed op d hop)

theorem foldl_aStarStep_persist (goal : Pos) (n : Nat) (current : ANode)
    (closed : Finset Pos) :
    ∀ (ds : List Pos) (op : List ANode) (nd : ANode), nd ∈ op →
      ∃ nd' ∈ ds.foldl (aStarStep goal n ∅ current closed) op,
        nd'.pos = nd.pos ∧ nd'.g ≤ nd.g ∧ nd'.h = nd.h := by
  intro ds
  induction ds with
  | nil => intro op nd h; exact ⟨nd, h, rfl, le_refl _, rfl⟩
  | cons d ds' ih =>
    intro op nd h
    rw [List.foldl_cons]
    obtain ⟨nd1, hnd1, hpos1, hg1, hh1⟩ :=
      aStarStep_persist goal n current closed op d nd h
    obtain ⟨nd2, hnd2, hpos2, hg2, hh2⟩ := ih _ nd1 hnd1
    exact ⟨nd2, hnd2, hpos2.trans hpos1, le_trans hg2 hg1, hh2.trans hh1⟩

theorem foldl_aStarStep_relax (goal : Pos) (n : Nat) (current : ANode)
    (closed : Finset Pos) :
    ∀ (ds : List Pos) (op : List ANode) (d : Pos), d ∈ ds →
      inB n (⟨current.x + d.x, current.y + d.y⟩ : Pos) →
      (⟨current.x + d.x, current.y + d.y⟩ : Pos) ∉ closed →
      ∃ nd' ∈ ds.foldl (aStarStep goal n ∅ current closed) op,
        nd'.pos = (⟨current.x + d.x, current.y + d.y⟩ : Pos) ∧
        nd'.g ≤ current.g + 1 := by
  intro ds
  induction ds with
  | nil => intro op d h; simp at h
  | cons d0 ds' ih =>
    intro op d hd hin hnc
    rw [List.foldl_cons]
    rcases List.mem_cons.mp hd with heq | hmem
    · subst heq
      obtain ⟨nd1, hnd1, hpos1, hg1⟩ :=
        aStarStep_relax goal n current closed op d hin hnc
      obtain ⟨nd2, hnd2, hpos2, hg2, -⟩ :=
        foldl_aStarStep_persist goal n current closed ds' _ nd1 hnd1
      exact ⟨nd2, hnd2, hpos2.trans hpos1, le_trans hg2 hg1⟩
    · exact ih _ d hmem hin hnc

theorem frontier_walk (n : Nat) (s z : Pos) (op : List ANode)
    (closed : Finset Pos)
    (hbstar : ∀ c ∈ closed, ∀ q : Pos, step1 c q → inB n q →
      q ∈ closed ∨ ∃ nd ∈ op, nd.pos = q ∧ nd.g ≤ manhattanDistance s c + 1)
    (hz : z ∉ closed) :
    ∀ (p : List Pos) (c : Pos), IsGridPath n c p → endPos c p = z →
      manhattanDistance s c + p.length = manhattanDistance s z →
      (c ∈ closed ∨ ∃ nd ∈ op, nd.pos = c ∧ nd.g ≤ manhattanDistance s c) →
      ∃ nd ∈ op, nd.g + manhattanDistance nd.pos z ≤ manhattanDistance s z := by
  intro p
  induction p with
  | nil =>
    intro c hp hend hsum hdisc
    have hcz : c = z := hend
    subst hcz
    rcases hdisc with h | ⟨nd, hnd, hpos, hg⟩
    · exact absurd h hz
    · refine ⟨nd, hnd, ?_⟩
      rw [hpos, manhattanDistance_self]
      simp only [List.length_nil] at hsum
      omega
  | cons q rest ih =>
    intro c hp hend hsum hdisc
    obtain ⟨hstep, hq, hrest⟩ := hp
    rw [endPos_cons] at hend
    rcases hdisc with hc | ⟨nd, hnd, hpos, hg⟩
    · have htri := manhattanDistance_triangle s c q
      have hstep1 : manhattanDistance c q = 1 := hstep
      have hlen : manhattanDistance q z ≤ rest.length := by
        have := gridPath_length_ge n rest q hrest
        rw [hend] at this
        exact this
      have htriz := manhattanDistance_triangle s q z
      have hmq : manhattanDistance s q = manhattanDistance s c + 1 := by
        simp only [List.length_cons] at hsum
        omega
      rcases hbstar c hc q hstep hq with hqc | ⟨nd, hnd, hpos, hg⟩
      · refine ih q hrest hend ?_ (Or.inl hqc)
        simp only [List.length_cons] at hsum
        omega
      · refine ih q hrest hend ?_ (Or.inr ⟨nd, hnd, hpos, by omega⟩)
        simp only [List.length_cons] at hsum
        omega
    · refine ⟨nd, hnd, ?_⟩
      rw [hpos]
      have h2 : manhattanDistance c z ≤ (q :: rest).length := by
        have h3 := gridPath_length_ge n (q :: rest) c ⟨hstep, hq, hrest⟩
        rw [endPos_cons, hend] at h3
        exact h3
      simp only [List.length_cons] at hsum h2
      omega

theorem openFrontier (n : Nat) (s goal : Pos) (op : List ANode)
    (closed : Finset Pos) (hinv : AInv n s goal op closed) (hs : inB n s) :
    ∀ z, inB n z → z ∉ closed →
      ∃ nd ∈ op, nd.g + manhattanDistance nd.pos z ≤ manhattanDistance s z := by
  intro z hzb hz
  obtain ⟨p, hp, hend, hlen⟩ :=
    gridPath_exists n (manhattanDistance s z) s z hs hzb rfl
  refine frontier_walk n s z op closed hinv.bstar hz p s hp hend ?_ ?_
  · rw [manhattanDistance_self, hlen]
    omega
  · by_cases hsc : s ∈ closed
    · exact Or.inl hsc
    · obtain ⟨nd, hnd, hpos, hg⟩ := hinv.sopen hsc
      exact Or.inr ⟨nd, hnd, hpos, by rw [hg]; exact Nat.zero_le _⟩

theorem popped_g_opt (n : Nat) (s goal : Pos) (op : List ANode)
    (closed : Finset Pos) (hinv : AInv n s goal op closed) (hs : inB n s)
    (current : ANode) (opRest : List ANode)
    (hpop : popMinF op = some (current, opRest)) :
    current.g = manhattanDistance s current.pos := by
  have hcur : current ∈ op := popMinF_mem op current opRest hpop
  obtain ⟨hinb, hncl, hpath, hend, hlen, hh, hf⟩ := hinv.opnode current hcur
  obtain ⟨nd, hnd, hle⟩ :=
    openFrontier n s goal op closed hinv hs current.pos hinb hncl
  have hmin := popMinF_min op current opRest hpop nd hnd
  obtain ⟨-, -, -, -, -, hh', hf'⟩ := hinv.opnode nd hnd
  have htri := manhattanDistance_triangle nd.pos current.pos goal
  have hge : manhattanDistance s current.pos ≤ current.g := by
    have h3 := gridPath_length_ge n current.path s hpath
    rw [hend] at h3
    omega
  rw [hf, hh] at hmin
  rw [hf', hh'] at hmin
  omega

theorem Pos_mk_x (a b : Int) : (⟨a, b⟩ : Pos).x = a := rfl

theorem Pos_mk_y (a b : Int) : (⟨a, b⟩ : Pos).y = b := rfl

theorem mem_gridFinset (n : Nat) (p : Pos) : p ∈ gridFinset n ↔ inB n p := by
  unfold gridFinset inB
  simp only [Finset.mem_image, Finset.mem_product, Finset.mem_range, Prod.exists]
  constructor
  · rintro ⟨a, b, ⟨ha, hb⟩, rfl⟩
    simp only [Pos_mk_x, Pos_mk_y]
    omega
  · rintro ⟨h1, h2, h3, h4⟩
    obtain ⟨px, py⟩ := p
    simp only [Pos_mk_x, Pos_mk_y] at h1 h2 h3 h4
    refine ⟨px.toNat, py.toNat, ⟨by omega, by omega⟩, ?_⟩
    simp only [Pos.mk.injEq]
    omega

theorem gridFinset_card (n : Nat) : (gridFinset n).card = n * n := by
  unfold gridFinset
  rw [Finset.card_image_of_injective]
  · rw [Finset.card_product, Finset.card_range]
  · intro a b hab
    simp only [Pos.mk.injEq, Nat.cast_injective.eq_iff] at hab
    exact Prod.ext hab.1 hab.2

theorem AInv_step (n : Nat) (s goal : Pos) (op : List ANode)
    (closed : Finset Pos) (hinv : AInv n s goal op closed) (hs : inB n s)
    (current : ANode) (opRest : List ANode)
    (hpop : popMinF op = some (current, opRest))
    (hng : ¬(current.x = goal.x ∧ current.y = goal.y)) :
    AInv n s goal
      (directions.foldl
        (aStarStep goal n ∅ current (insert current.pos closed)) opRest)
      (insert current.pos closed) := by
  have hperm := popMinF_perm op current opRest hpop
  have hcur : current ∈ op := popMinF_mem op current opRest hpop
  obtain ⟨hcinb, hcncl, hcpath, hcend, hclen, hch, hcf⟩ := hinv.opnode current hcur
  have huop := popped_g_opt n s goal op closed hinv hs current opRest hpop
  have hpw : (current :: opRest).Pairwise fun a b => a.pos ≠ b.pos :=
    (hperm.pairwise_iff fun hab => Ne.symm hab).mp hinv.uniq
  obtain ⟨hhead, htail⟩ := List.pairwise_cons.mp hpw
  have hrest_inv : ∀ nd ∈ opRest,
      NodeInv n s goal (insert current.pos closed) nd := by
    intro nd hnd
    obtain ⟨h1, h2, h3, h4, h5, h6, h7⟩ :=
      hinv.opnode nd (hperm.mem_iff.mpr (List.mem_cons_of_mem _ hnd))
    refine ⟨h1, ?_, h3, h4, h5, h6, h7⟩
    intro hc
    rcases Finset.mem_insert.mp hc with hcc | hcc
    · exact hhead nd hnd hcc.symm
    · exact h2 hcc
  constructor
  · exact foldl_aStarStep_nodeInv n s goal current _ hcpath hcend hclen
      directions (fun d hd => hd) opRest hrest_inv
  · exact foldl_aStarStep_uniq goal n current _ directions opRest htail
  · intro q hq
    rcases Finset.mem_insert.mp hq with hcc | hcc
    · rw [hcc]; exact hcinb
    · exact hinv.cbnd q hcc
  · intro hs'
    have hs'' : s ∉ closed := fun hc => hs' (Finset.mem_insert_of_mem hc)
    have hsne : s ≠ current.pos := fun hc => hs' (hc ▸ Finset.mem_insert_self _ _)
    obtain ⟨nd0, hnd0, hp0, hg0⟩ := hinv.sopen hs''
    have hnd0r : nd0 ∈ opRest := by
      rcases List.mem_cons.mp (hperm.mem_iff.mp hnd0) with hcc | hcc
      · exact absurd (hcc ▸ hp0 : current.pos = s) (Ne.symm hsne)
      · exact hcc
    obtain ⟨nd', hnd', hpos', hg', -⟩ :=
      foldl_aStarStep_persist goal n current _ directions opRest nd0 hnd0r
    exact ⟨nd', hnd', hpos'.trans hp0, by omega⟩
  · intro c hc q hstep hq
    rcases Finset.mem_insert.mp hc with hceq | hcold
    · subst hceq
      by_cases hqc : q ∈ insert current.pos closed
      · exact Or.inl hqc
      · obtain ⟨d, hd, hqd⟩ := step1_exists_dir current.pos q hstep
        have hqd' : q = (⟨current.x + d.x, current.y + d.y⟩ : Pos) := hqd
        obtain ⟨nd', hnd', hpos', hg'⟩ :=
          foldl_aStarStep_relax goal n current _ directions opRest d hd
            (hqd' ▸ hq) (hqd' ▸ hqc)
        refine Or.inr ⟨nd', hnd', by rw [hpos', ← hqd'], by omega⟩
    · rcases hinv.bstar c hcold q hstep hq with hqcl | ⟨nd, hnd, hpos, hg⟩
      · exact Or.inl (Finset.mem_insert_of_mem hqcl)
      · rcases List.mem_cons.mp (hperm.mem_iff.mp hnd) with hcc | hcc
        · refine Or.inl ?_
          rw [← hpos, hcc]
          exact Finset.mem_insert_self _ _
        · obtain ⟨nd', hnd', hpos', hg', -⟩ :=
            foldl_aStarStep_persist goal n current _ directions opRest nd hcc
          exact Or.inr ⟨nd', hnd', hpos'.trans hpos, by omega⟩
  · intro hc
    rcases Finset.mem_insert.mp hc with hcc | hcc
    · refine hng ?_
      exact ⟨congrArg Pos.x hcc.symm, congrArg Pos.y hcc.symm⟩
    · exact hinv.goalopen hcc

theorem findPathAux_opt (n : Nat) (s goal : Pos) (hs : inB n s)
    (hg : inB n goal) :
    ∀ (fuel : Nat) (op : List ANode) (closed : Finset Pos),
      AInv n s goal op closed → n * n ≤ closed.card + fuel →
      (findPathAux goal n ∅ fuel op closed).length =
        manhattanDistance s goal := by
  intro fuel
  induction fuel with
  | zero =>
    intro op closed hinv hcard
    exfalso
    have hsub : closed ⊆ (gridFinset n).erase goal := by
      intro q hq
      rw [Finset.mem_erase, mem_gridFinset]
      exact ⟨fun hqg => hinv.goalopen (hqg ▸ hq), hinv.cbnd q hq⟩
    have hle := Finset.card_le_card hsub
    rw [Finset.card_erase_of_mem ((mem_gridFinset n goal).mpr hg),
      gridFinset_card] at hle
    have hn : 1 ≤ n := by
      obtain ⟨h1, h2, -, -⟩ := hg
      omega
    have hnn : 1 ≤ n * n := Nat.le_trans hn (Nat.le_mul_of_pos_left n hn)
    omega
  | succ fuel ih =>
    intro op closed hinv hcard
    unfold findPathAux
    cases hpop : popMinF op with
    | none =>
      exfalso
      obtain rfl := (popMinF_eq_none_iff op).mp hpop
      obtain ⟨nd, hnd, -⟩ :=
        openFrontier n s goal [] closed hinv hs goal hg hinv.goalopen
      simp at hnd
    | some cr =>
      obtain ⟨current, opRest⟩ := cr
      dsimp only
      by_cases hgl : current.x = goal.x ∧ current.y = goal.y
      · rw [if_pos hgl]
        obtain ⟨-, -, -, -, hlen, -, -⟩ :=
          hinv.opnode current (popMinF_mem op current opRest hpop)
        have huop := popped_g_opt n s goal op closed hinv hs current opRest hpop
        have hposg : current.pos = goal := by
          show (⟨current.x, current.y⟩ : Pos) = goal
          rw [hgl.1, hgl.2]
        rw [hlen, huop, hposg]
      · rw [if_neg hgl]
        have hstep := AInv_step n s goal op closed hinv hs current opRest hpop hgl
        have hncl : current.pos ∉ closed :=
          (hinv.opnode current (popMinF_mem op current opRest hpop)).2.1
        have hcard' : n * n ≤ (insert current.pos closed).card + fuel := by
          rw [Finset.card_insert_of_not_mem hncl]
          omega
        exact ih _ _ hstep hcard'

/-- C1: on an obstacle-free bounded square grid, for every start and goal
position on the grid (the goal being reachable from the start), the A*
pathfinder returns a path whose length equals the true shortest-path length
between start and goal — the length a reference breadth-first search computes,
characterized here as attained by some grid walk and minimal among all grid
walks. -/
theorem c1_pathfinder_optimal (n : Nat) (s g : Pos) (hs : inB n s)
    (hg : inB n g) (_hreach : ∃ p, IsGridPath n s p ∧ endPos s p = g) :
    (findPath s g n ∅).length = manhattanDistance s g ∧
    IsShortestLen n s g (findPath s g n ∅).length := by
  have hinit : AInv n s g
      [⟨s.x, s.y, 0, manhattanDistance s g, manhattanDistance s g, []⟩] ∅ := by
    constructor
    · intro nd hnd
      simp only [List.mem_singleton] at hnd
      subst hnd
      exact ⟨hs, by simp, trivial, rfl, rfl, rfl, (Nat.zero_add _).symm⟩
    · exact List.pairwise_singleton _ _
    · intro q hq
      simp at hq
    · intro _
      exact ⟨_, List.mem_singleton.mpr rfl, rfl, rfl⟩
    · intro c hc
      simp at hc
    · simp
  have hmain := findPathAux_opt n s g hs hg (n * n + 2) _ ∅ hinit
    (by simp)
  have hfp : (findPath s g n ∅).length = manhattanDistance s g := hmain
  refine ⟨hfp, ?_, ?_⟩
  · rw [hfp]
    exact gridPath_exists n (manhattanDistance s g) s g hs hg rfl
  · intro p hp hend
    rw [hfp]
    have := gridPath_length_ge n p s hp
    rw [hend] at this
    exact this

/-- Witness for C1 on a 2×2 grid from `(0, 0)` to `(1, 1)`. -/
theorem c1_pathfinder_optimal_witness :
    inB 2 ⟨0, 0⟩ ∧ inB 2 ⟨1, 1⟩ ∧
    (∃ p, IsGridPath 2 ⟨0, 0⟩ p ∧ endPos ⟨0, 0⟩ p = ⟨1, 1⟩) ∧
    ((findPath ⟨0, 0⟩ ⟨1, 1⟩ 2 ∅).length = manhattanDistance ⟨0, 0⟩ ⟨1, 1⟩ ∧
      IsShortestLen 2 ⟨0, 0⟩ ⟨1, 1⟩ (findPath ⟨0, 0⟩ ⟨1, 1⟩ 2 ∅).length) :=
  ⟨by decide, by decide, ⟨[⟨1, 0⟩, ⟨1, 1⟩], by decide, by decide⟩,
   c1_pathfinder_optimal 2 ⟨0, 0⟩ ⟨1, 1⟩ (by decide) (by decide)
     ⟨[⟨1, 0⟩, ⟨1, 1⟩], by decide, by decide⟩⟩
